import Mathlib

/-!
Verification development for the repository scanning & evidence-extraction
engine (discovery-agent).  The definitions below are shallow embeddings of
the Python sources:

* `globMatch` / `fnmatch` embed Python's `fnmatch.fnmatch` for the glob
  patterns used by the repository (`*`, `?` and literal characters; no
  pattern in the repository uses `[...]` character classes).  In `fnmatch`
  a `*` matches any run of characters *including* path separators, and the
  whole name must match.
* `specGlobMatches` is modelled from the spec's §4.1 wording (`*` within a
  segment, `**` across segments); it exists only to contrast the spec's
  intended glob semantics with the code's `fnmatch` semantics.
* `Entry` models a directory tree as seen by `os.walk`; file contents are
  the `readlines()` result (lines keep their trailing newline).
* `scanFileLines`, `searchWalkFuel`, `runSearch` embed
  `SearchRepoPatternsTool._run` (src/discovery_agent/tools/search_repo_patterns.py).
  Compiled regexes are abstracted as functions `String → List String`
  returning the list of occurrences in a line (`finditer`); `re.search`
  truthiness is emptiness of that list.  The walk recursion uses explicit
  fuel (strictly larger than the tree size, so it never runs out); numeric
  caps are `Nat` (the tools' callers pass non-negative counts).
* `listWalkFuel`, `scanLocalFs`, `listRepositoryFiles` embed
  `ListRepositoryFilesTool._scan_local_fs` / `._run`
  (src/discovery_agent/tools/repo_mcp_tools.py).
* `endpointScanLine` embeds the per-line inner loop of
  `EndpointScannerTool._run` (src/discovery_agent/tools/endpoint_scanner.py),
  with each named pattern abstracted as its category plus an
  occurrence-to-extracted-value function.
-/

/-- Python `fnmatch` glob matching on character lists: `*` matches any run of
characters (crossing `/`), `?` matches one character, anything else is a
literal.  The whole string must be consumed (fnmatch anchors with `\Z`). -/
def globMatch : List Char → List Char → Bool
  | [], s => s.isEmpty
  | '*' :: ps, s => s.tails.any (fun t => globMatch ps t)
  | '?' :: ps, [] => false
  | '?' :: ps, _ :: cs => globMatch ps cs
  | _ :: _, [] => false
  | p :: ps, c :: cs => p == c && globMatch ps cs

/-- Embeds `fnmatch.fnmatch(name, pat)` (POSIX `normcase` is the identity). -/
def fnmatch (pat name : String) : Bool := globMatch pat.data name.data

/-- Embeds `any(fnmatch.fnmatch(rel, pattern) for pattern in globs)`. -/
def anyMatch (globs : List String) (rel : String) : Bool :=
  globs.any (fun g => fnmatch g rel)

/-- Python substring test `needle in hay`, on character lists. -/
def pyIn (needle hay : List Char) : Bool :=
  hay.tails.any (fun t => needle.isPrefixOf t)

/-- Embeds Python `str.lower` (character-wise; `Char.toLower` lowercases the
ASCII range, which covers every keyword and input the claims exercise). -/
def pyLower (s : String) : String := ⟨s.data.map Char.toLower⟩

/-- Strips leading and trailing whitespace from a character list (Python
`str.strip` without arguments; `Char.isWhitespace` covers the whitespace
the scanned content uses). -/
def stripList (cs : List Char) : List Char :=
  ((cs.dropWhile Char.isWhitespace).reverse.dropWhile Char.isWhitespace).reverse

/-- Embeds Python `str.strip()`. -/
def pyStrip (s : String) : String := ⟨stripList s.data⟩

/-- Splits a character list on `/` (Python `str.split("/")`; used only by
the spec-side glob matcher). -/
def splitSlash : List Char → List (List Char)
  | [] => [[]]
  | '/' :: rest => [] :: splitSlash rest
  | c :: rest =>
    match splitSlash rest with
    | [] => [[c]]
    | s :: ss => (c :: s) :: ss

/-- Modelled from the spec: §4.1 "standard glob semantics (`*` within a
segment, `**` across segments)".  A `**` segment matches zero or more whole
path segments; within a segment `globMatch` applies (segments contain no
separator, so its `*` stays within the segment).  This is the spec's
intended matcher, used only to contrast with the code's `fnmatch`. -/
def specGlobSegs : List (List Char) → List (List Char) → Bool
  | [], segs => segs.isEmpty
  | ['*', '*'] :: ps, segs => segs.tails.any (fun t => specGlobSegs ps t)
  | _ :: _, [] => false
  | p :: ps, s :: ss => globMatch p s && specGlobSegs ps ss

/-- Modelled from the spec: glob match on whole paths, splitting on `/`. -/
def specGlobMatches (pat path : String) : Bool :=
  specGlobSegs (splitSlash pat.data) (splitSlash path.data)

/- A filesystem tree as traversed by `os.walk`.  `EntryList` is a bespoke
list type so that recursions over the tree are structural (computable). -/
mutual
/-- A tree node: files carry their `readlines()` content (each line keeps
its trailing newline, except possibly the last); directories carry their
entries in scandir order. -/
inductive Entry where
  | file (name : String) (lines : List String)
  | dir (name : String) (entries : EntryList)

/-- A list of sibling tree nodes. -/
inductive EntryList where
  | nil
  | cons (e : Entry) (rest : EntryList)
end

/- Node counts, used as walk fuel (any bound strictly above the nesting
depth works, and the depth is at most the node count). -/
mutual
/-- Number of nodes of a tree node. -/
def entrySize : Entry → Nat
  | .file _ _ => 1
  | .dir _ es => 1 + entryListSize es

/-- Total number of nodes of a forest. -/
def entryListSize : EntryList → Nat
  | .nil => 0
  | .cons e rest => entrySize e + entryListSize rest
end

/-- Embeds `str(rel_dir / name)` for a relative directory given by its
segments (at the walk root, `rel_dir` is `Path(".")` and the result is
just the name, which is what `str(Path(".") / name)` yields). -/
def relOf : List String → String → String
  | [], name => name
  | d :: segs, name => d ++ "/" ++ relOf segs name

/-- Embeds `str(root / rel)` (no normalization is needed for the roots used). -/
def absOf (root rel : String) : String := root ++ "/" ++ rel

/-- The `filenames` of an `os.walk` triple, with their contents. -/
def filesOf : EntryList → List (String × List String)
  | .nil => []
  | .cons (.file n ls) rest => (n, ls) :: filesOf rest
  | .cons (.dir _ _) rest => filesOf rest

/-- The `dirnames` of an `os.walk` triple, with their subtrees. -/
def dirsOf : EntryList → List (String × EntryList)
  | .nil => []
  | .cons (.file _ _) rest => dirsOf rest
  | .cons (.dir d es) rest => (d, es) :: dirsOf rest

/-- The directory-pruning test shared by all scanners:
`any(fnmatch.fnmatch(full + "/", pattern) for pattern in exclude_globs)`. -/
def pruneDir (excludeGlobs : List String) (segs : List String) (d : String) : Bool :=
  anyMatch excludeGlobs (relOf segs d ++ "/")

/-- One evidence record of the generic pattern scanner. -/
structure Match where
  path : String
  line_start : Nat
  line_end : Nat
  code_snippet : String
deriving DecidableEq, Repr

/-- A compiled regex, abstracted as the list of its occurrences in a line. -/
abbrev Pattern := String → List String

/-- Inner loop of `SearchRepoPatternsTool._run` over the compiled patterns
for one line: on `creg.search(line)` (some occurrence exists) an evidence
record is appended and the per-file counter is incremented; once the
counter reaches `max_matches_per_file` the loop breaks. -/
def scanLine (ps : List Pattern) (path : String) (allLines : List String)
    (idx ctx maxM : Nat) (line : String) (cnt : Nat) : List Match × Nat :=
  match ps with
  | [] => ([], cnt)
  | p :: rest =>
    if (p line).isEmpty then scanLine rest path allLines idx ctx maxM line cnt
    else
      let start := max 1 (idx - ctx)
      let stop := min allLines.length (idx + ctx)
      let snippet := pyStrip (String.join ((allLines.drop (start - 1)).take (stop + 1 - start)))
      let m : Match := ⟨path, start, stop, snippet⟩
      let cnt1 := cnt + 1
      if maxM ≤ cnt1 then ([m], cnt1)
      else
        let r := scanLine rest path allLines idx ctx maxM line cnt1
        (m :: r.1, r.2)

/-- Outer loop of `SearchRepoPatternsTool._run` over the lines of one file
(1-based indices); after each line, if the per-file counter has reached
`max_matches_per_file` the line loop breaks. -/
def scanLinesGo (ps : List Pattern) (path : String) (allLines : List String)
    (ctx maxM : Nat) : List String → Nat → Nat → List Match
  | [], _, _ => []
  | l :: rest, idx, cnt =>
    let r := scanLine ps path allLines idx ctx maxM l cnt
    if maxM ≤ r.2 then r.1
    else r.1 ++ scanLinesGo ps path allLines ctx maxM rest (idx + 1) r.2

/-- All evidence records the generic scanner extracts from one file. -/
def scanFileLines (ps : List Pattern) (ctx maxM : Nat) (path : String)
    (lines : List String) : List Match :=
  scanLinesGo ps path lines ctx maxM lines 1 0

/-- Configuration of `SearchRepoPatternsTool._run` after defaulting. -/
structure SearchCfg where
  root : String
  patterns : List Pattern
  includeGlobs : List String
  excludeGlobs : List String
  maxMatchesPerFile : Nat
  contextLines : Nat
  maxFiles : Nat

/-- Walk state: files counted, files actually opened (ghost record used to
state the cap invariant), evidence accumulated, and whether the walk has
been broken out of. -/
structure ScanAcc where
  fileCount : Nat
  opened : List String
  results : List Match
  stopped : Bool
deriving Repr

def ScanAcc.init : ScanAcc := ⟨0, [], [], false⟩

/-- The `for f in filenames` loop of `SearchRepoPatternsTool._run`:
exclude check, include check, count the file, break (without opening) once
`file_count > max_files`, otherwise open and scan it. -/
def searchWalkFiles (cfg : SearchCfg) (segs : List String) :
    List (String × List String) → ScanAcc → ScanAcc
  | [], acc => acc
  | (f, ls) :: rest, acc =>
    let rel := relOf segs f
    if anyMatch cfg.excludeGlobs rel then searchWalkFiles cfg segs rest acc
    else if !cfg.includeGlobs.isEmpty && !anyMatch cfg.includeGlobs rel then
      searchWalkFiles cfg segs rest acc
    else
      let fc := acc.fileCount + 1
      if cfg.maxFiles < fc then { acc with fileCount := fc }
      else
        let ap := absOf cfg.root rel
        let ms := scanFileLines cfg.patterns cfg.contextLines cfg.maxMatchesPerFile ap ls
        searchWalkFiles cfg segs rest
          { acc with
            fileCount := fc
            opened := acc.opened ++ [ap]
            results := acc.results ++ ms }

/-- The `os.walk` loop of `SearchRepoPatternsTool._run`: for each directory,
process its files, break the whole walk once `file_count > max_files`, and
recurse depth-first into subdirectories not pruned by the exclude globs.
`fuel` bounds the recursion depth; every caller passes more fuel than the
tree is deep, so the bound is never hit. -/
def searchWalkFuel : Nat → SearchCfg → List String → EntryList → ScanAcc → ScanAcc
  | 0, _, _, _, acc => acc
  | fuel + 1, cfg, segs, entries, acc =>
    let acc1 := searchWalkFiles cfg segs (filesOf entries) acc
    let acc2 := if cfg.maxFiles < acc1.fileCount then { acc1 with stopped := true } else acc1
    (dirsOf entries).foldl
      (fun a de =>
        if a.stopped then a
        else if pruneDir cfg.excludeGlobs segs de.1 then a
        else searchWalkFuel fuel cfg (segs ++ [de.1]) de.2 a)
      acc2

/-- Default include globs of `SearchRepoPatternsTool._run`. -/
def searchDefaultIncludes : List String :=
  ["**/*.py", "**/*.ts", "**/*.tsx", "**/*.js", "**/*.jsx", "**/*.go",
   "**/*.java", "**/*.cs", "**/*.rb", "**/*.php", "**/*.kt", "**/*.scala"]

/-- Default exclude globs of `SearchRepoPatternsTool._run`. -/
def searchDefaultExcludes : List String :=
  ["**/.git/**", "**/node_modules/**", "**/.venv/**", "**/dist/**",
   "**/build/**", "**/.next/**", "**/coverage/**"]

/-- Embeds `SearchRepoPatternsTool._run` on a tree: default the glob lists
(`include_globs or [...]`, `exclude_globs or [...]`), return the empty
result when no pattern compiles, otherwise walk.  The `if p` falsy-pattern
filter is prior to the abstraction (patterns arrive compiled). -/
def runSearch (root : String) (patterns : List Pattern)
    (includeGlobs excludeGlobs : List String) (maxM ctx maxFiles : Nat)
    (tree : EntryList) : ScanAcc :=
  let cfg : SearchCfg :=
    { root := root
      patterns := patterns
      includeGlobs := if includeGlobs.isEmpty then searchDefaultIncludes else includeGlobs
      excludeGlobs := if excludeGlobs.isEmpty then searchDefaultExcludes else excludeGlobs
      maxMatchesPerFile := maxM
      contextLines := ctx
      maxFiles := maxFiles }
  if patterns.isEmpty then ScanAcc.init
  else searchWalkFuel (entryListSize tree + 1) cfg [] tree ScanAcc.init

/-- The `for f in filenames` loop of
`ListRepositoryFilesTool._scan_local_fs`: exclude check, include check,
then record the absolute path.  No cap applies inside the walk. -/
def listWalkFiles (inc exc : List String) (root : String) (segs : List String) :
    List (String × List String) → List String → List String
  | [], acc => acc
  | (f, _) :: rest, acc =>
    let rel := relOf segs f
    if anyMatch exc rel then listWalkFiles inc exc root segs rest acc
    else if !inc.isEmpty && !anyMatch inc rel then listWalkFiles inc exc root segs rest acc
    else listWalkFiles inc exc root segs rest (acc ++ [absOf root rel])

/-- The `os.walk` loop of `ListRepositoryFilesTool._scan_local_fs`. -/
def listWalkFuel : Nat → List String → List String → String →
    List String → EntryList → List String → List String
  | 0, _, _, _, _, _, acc => acc
  | fuel + 1, inc, exc, root, segs, entries, acc =>
    let acc1 := listWalkFiles inc exc root segs (filesOf entries) acc
    (dirsOf entries).foldl
      (fun a de =>
        if pruneDir exc segs de.1 then a
        else listWalkFuel fuel inc exc root (segs ++ [de.1]) de.2 a)
      acc1

/-- Embeds `ListRepositoryFilesTool._scan_local_fs` on a tree. -/
def scanLocalFs (root : String) (inc exc : List String) (tree : EntryList) : List String :=
  listWalkFuel (entryListSize tree + 1) inc exc root [] tree []

/-- Embeds `ListRepositoryFilesTool._run`: default the glob lists
(`include_globs or ["**/*"]`), scan, then cap the list
(`files[:max_files]`, applied only when the list is longer). -/
def listRepositoryFiles (root : String) (includeGlobs excludeGlobs : List String)
    (maxFiles : Nat) (tree : EntryList) : List String :=
  let inc := if includeGlobs.isEmpty then ["**/*"] else includeGlobs
  let exc := if excludeGlobs.isEmpty then
      ["**/.git/**", "**/node_modules/**", "**/.venv/**"] else excludeGlobs
  let files := scanLocalFs root inc exc tree
  if maxFiles < files.length then files.take maxFiles else files

/-- One evidence record of the endpoint scanner. -/
structure EndpointMatch where
  path : String
  line_numbers : String
  category : String
  value : String
  code_snippet : String
deriving DecidableEq, Repr

/-- A named endpoint pattern: its category, and the compiled regex
abstracted as the per-line list of extracted values — one element per
`finditer` occurrence, each already reduced to
`m.group(1) if m.groups() else m.group(0)`. -/
abbrev EndpointPattern := String × (String → List String)

/-- Inner loops of `EndpointScannerTool._run` for one line: for every named
pattern, one record is appended per occurrence in the line. -/
def endpointScanLine (pats : List EndpointPattern) (path : String)
    (idx : Nat) (line : String) : List EndpointMatch :=
  match pats with
  | [] => []
  | (key, rx) :: rest =>
    (rx line).map (fun url =>
      ⟨path, "L" ++ toString idx ++ "-" ++ toString idx, key, url, pyStrip line⟩)
      ++ endpointScanLine rest path idx line

/- Dynamic Python values, for the tools that manipulate parsed JSON
(`src/user_histories/tools.py`, `robust_search_repo_patterns.py`).
The list/dict payloads use bespoke list types so recursions stay
structural.  `json.loads` itself is abstracted: a parse either fails or
yields a `PyValue` (duplicate-key objects are not modelled; `json.loads`
never produces them). -/
mutual
/-- A Python value as produced by `json.loads`. -/
inductive PyValue where
  | pnone
  | pbool (b : Bool)
  | pint (n : Int)
  | pstr (s : String)
  | plist (xs : PyItems)
  | pdict (kvs : PyFields)

/-- Items of a Python list. -/
inductive PyItems where
  | nil
  | cons (v : PyValue) (rest : PyItems)

/-- Key/value fields of a Python dict, in insertion order. -/
inductive PyFields where
  | nil
  | cons (k : String) (v : PyValue) (rest : PyFields)
end

/-- The items of a `PyItems` as a Lean list. -/
def itemsToList : PyItems → List PyValue
  | .nil => []
  | .cons v rest => v :: itemsToList rest

/-- The keys of a dict, in insertion order. -/
def fieldKeys : PyFields → List String
  | .nil => []
  | .cons k _ rest => k :: fieldKeys rest

/-- Dict field lookup (first occurrence; `json.loads` yields unique keys). -/
def assocGet : PyFields → String → Option PyValue
  | .nil, _ => Option.none
  | .cons k v rest, key => if k == key then some v else assocGet rest key

/-- Python truthiness of a value. -/
def pyTruthy : PyValue → Bool
  | .pnone => false
  | .pbool b => b
  | .pint n => n != 0
  | .pstr s => !s.isEmpty
  | .plist .nil => false
  | .plist (.cons _ _) => true
  | .pdict .nil => false
  | .pdict (.cons _ _ _) => true

/- Python `repr`/`str` rendering, as used by f-string interpolation.
`repr` escape sequences inside strings are not modelled (no claim renders
a string needing escapes). -/
mutual
/-- Python `repr` of a value. -/
def pyRepr : PyValue → String
  | .pnone => "None"
  | .pbool true => "True"
  | .pbool false => "False"
  | .pint n => toString n
  | .pstr s => "'" ++ s ++ "'"
  | .plist xs => "[" ++ pyReprItems xs ++ "]"
  | .pdict kvs => "\x7b" ++ pyReprFields kvs ++ "\x7d"

/-- Renders list items with `repr`, comma-separated. -/
def pyReprItems : PyItems → String
  | .nil => ""
  | .cons v .nil => pyRepr v
  | .cons v (.cons w rest) => pyRepr v ++ ", " ++ pyReprItems (.cons w rest)

/-- Renders dict fields with `repr`, comma-separated. -/
def pyReprFields : PyFields → String
  | .nil => ""
  | .cons k v .nil => "'" ++ k ++ "': " ++ pyRepr v
  | .cons k v (.cons k' w rest) =>
    "'" ++ k ++ "': " ++ pyRepr v ++ ", " ++ pyReprFields (.cons k' w rest)
end

/-- Python `str()` of a value (what an f-string interpolates). -/
def pyStrOf : PyValue → String
  | .pstr s => s
  | v => pyRepr v

/-- Python exceptions that the modelled code can raise. -/
inductive PyErr where
  | attributeError
  | typeError
deriving DecidableEq, Repr

/-- Embeds `value.get(key, default)`: dict lookup with default; any non-dict
raises `AttributeError`. -/
def pyGetE (v : PyValue) (key : String) (dflt : PyValue) : Except PyErr PyValue :=
  match v with
  | .pdict kvs => .ok ((assocGet kvs key).getD dflt)
  | _ => .error .attributeError

/-- Embeds `for x in v`: lists yield their items, strings their characters (as
1-character strings), dicts their keys; other values raise `TypeError`. -/
def pyIterE : PyValue → Except PyErr (List PyValue)
  | .plist xs => .ok (itemsToList xs)
  | .pstr s => .ok (s.data.map (fun c => .pstr (String.mk [c])))
  | .pdict kvs => .ok ((fieldKeys kvs).map .pstr)
  | _ => .error .typeError

/-- Embeds `v.lower()` truthiness checks: a string is required (otherwise
`AttributeError`); the claims
below consume the result, so this returns the string unlowered and the
caller applies `String.toLower` — see `detect_persona`. -/
def asStrE : PyValue → Except PyErr String
  | .pstr s => .ok s
  | _ => .error .attributeError

/-- Embeds `GenerateGherkinStoriesTool._detect_persona`: lowercase the rule text,
then test four ordered keyword groups by substring containment; first
matching group wins, default `Usuário`.  (`str.lower` is modelled by
`String.toLower`; the keywords involved are already lowercase.) -/
def detect_persona (rule_text : String) : String :=
  let text := pyLower rule_text
  if ["admin", "administrador", "moderador", "operador"].any
      (fun k => pyIn k.data text.data) then "Administrador"
  else if ["jogador", "player"].any (fun k => pyIn k.data text.data) then "Jogador"
  else if ["sistema", "api", "serviço", "servico"].any
      (fun k => pyIn k.data text.data) then "Sistema"
  else if ["usuário", "usuario", "user"].any (fun k => pyIn k.data text.data) then "Usuário"
  else "Usuário"

/-- Embeds `GenerateGherkinStoriesTool._sanitize_filename` on a string: keep
alphanumerics (Lean's ASCII `Char.isAlphanum` stands in for Python's
Unicode `str.isalnum`; every name the claims exercise is ASCII), spaces,
hyphens, underscores; strip; spaces to underscores; empty falls back to
`"module"`. -/
def sanitize_filename (name : String) : String :=
  let safe := name.data.filter (fun c => c.isAlphanum || c == ' ' || c == '-' || c == '_')
  let r := (stripList safe).map (fun c => if c == ' ' then '_' else c)
  if r.isEmpty then "module" else ⟨r⟩

/-- Sanitization of a module name value: non-strings raise (`"".join` /
`isalnum` on non-character data; exotic iterables of multi-character
strings are not modelled — no claim exercises them). -/
def sanitizeE : PyValue → Except PyErr String
  | .pstr s => .ok (sanitize_filename s)
  | _ => .error .typeError

/-- Embeds `persona_to_rules.setdefault(persona, []).append(br)`: insertion-ordered
grouping. -/
def addToGroup (groups : List (String × List PyValue)) (k : String) (v : PyValue) :
    List (String × List PyValue) :=
  match groups with
  | [] => [(k, [v])]
  | (k', vs) :: rest =>
    if k' == k then (k', vs ++ [v]) :: rest else (k', vs) :: addToGroup rest k v

/-- The grouping loop of `GenerateGherkinStoriesTool._run`: classify each
business rule's text and group the rules by persona. -/
def groupRules : List PyValue → List (String × List PyValue) →
    Except PyErr (List (String × List PyValue))
  | [], acc => .ok acc
  | br :: rest, acc => do
    let rt ← pyGetE br "rule" (.pstr "")
    let s ← asStrE rt
    groupRules rest (addToGroup acc (detect_persona s) br)

/-- The traceability-comment loop: one `# evidence:` line per cited file. -/
def evidenceLines : List PyValue → Except PyErr (List String)
  | [] => .ok []
  | fref :: rest => do
    let p ← pyGetE fref "path" (.pstr "")
    let ln ← pyGetE fref "line_numbers" (.pstr "")
    let more ← evidenceLines rest
    .ok (("  # evidence: " ++ pyStrOf p ++ " " ++ pyStrOf ln) :: more)

/-- The scenario-composition loop: one Scenario block per rule, with the
fixed generic Given/When steps and the literal rule text in the Then step,
followed by the evidence comments and a blank line. -/
def scenarioLines : List PyValue → Except PyErr (List String)
  | [] => .ok []
  | br :: rest => do
    let title ← pyGetE br "rule" (.pstr "Regra")
    let filesV ← pyGetE br "files" (.plist .nil)
    let files ← pyIterE filesV
    let ev ← evidenceLines files
    let more ← scenarioLines rest
    .ok (["Scenario: " ++ pyStrOf title,
          "  Given uma situação relevante para a regra",
          "  When a condição descrita na regra ocorre",
          "  Then " ++ pyStrOf title] ++ ev ++ [""] ++ more)

/-- The per-persona loop of `GenerateGherkinStoriesTool._run`: compose the
feature document, sanitize the module name into a filename, and record the
write (path, content); returns written paths and performed writes. -/
def personaFiles (outputDir : String) (groupByPersona : Bool)
    (moduleName functionalDomain : PyValue) :
    List (String × List PyValue) → Except PyErr (List String × List (String × String))
  | [] => .ok ([], [])
  | (persona, rules) :: rest => do
    let scen ← scenarioLines rules
    let lines :=
      ["Feature: " ++ pyStrOf moduleName ++ " (" ++ pyStrOf functionalDomain ++ ")", "",
       "# Persona: " ++ persona, ""] ++ scen
    let baseDir := if groupByPersona then outputDir ++ "/" ++ persona else outputDir
    let sanitized ← sanitizeE moduleName
    let filepath := baseDir ++ "/" ++ sanitized ++ ".md"
    let content := String.intercalate "\n" lines
    let (w, ws) ← personaFiles outputDir groupByPersona moduleName functionalDomain rest
    .ok (filepath :: w, (filepath, content) :: ws)

/-- The per-module body of `GenerateGherkinStoriesTool._run`. -/
def processModule (outputDir : String) (groupByPersona : Bool) (module : PyValue) :
    Except PyErr (List String × List (String × String)) := do
  let moduleName ← pyGetE module "name" (.pstr "Module")
  let functionalDomain ← pyGetE module "functional_domain" (.pstr "")
  let businessRules ← pyGetE module "business_rules" (.plist .nil)
  let brs ← pyIterE businessRules
  let groups ← groupRules brs []
  personaFiles outputDir groupByPersona moduleName functionalDomain groups

/-- The module loop of `GenerateGherkinStoriesTool._run`. -/
def processModules (outputDir : String) (groupByPersona : Bool) :
    List PyValue → Except PyErr (List String × List (String × String))
  | [] => .ok ([], [])
  | m :: rest => do
    let (w, ws) ← processModule outputDir groupByPersona m
    let (w', ws') ← processModules outputDir groupByPersona rest
    .ok (w ++ w', ws ++ ws')

/-- State of the analysis file as the tool observes it: missing on disk,
present but not valid JSON, or parsed to a value. -/
inductive AnalysisSource where
  | absent
  | unparsable
  | parsed (v : PyValue)

/-- The result of one generator run: returned `written` paths, returned
`error` message (if any), and the file writes performed (path, content). -/
structure GenResult where
  written : List String
  error : Option String
  writes : List (String × String)
deriving Repr

/-- The error message of `GenerateGherkinStoriesTool._run` (same message
for a missing and for an unparsable analysis file). -/
def genErrMsg (analysisPath : String) : String :=
  "analysis.json não encontrado ou inválido em " ++ analysisPath

/-- Embeds `GenerateGherkinStoriesTool._run`: report (not raise) when the analysis
file is absent or not valid JSON; otherwise iterate modules, group rules by
persona, and write one feature file per (module, persona).  `strict_mode`
is accepted and ignored, exactly as in the source (steps are always the
generic ones). -/
def generate_gherkin_stories (source : AnalysisSource) (analysisPath outputDir : String)
    (groupByPersona _strictMode : Bool) : Except PyErr GenResult :=
  match source with
  | .absent => .ok ⟨[], some (genErrMsg analysisPath), []⟩
  | .unparsable => .ok ⟨[], some (genErrMsg analysisPath), []⟩
  | .parsed v => do
    let modulesV ← pyGetE v "modules" (.plist .nil)
    let ms ← pyIterE modulesV
    let (w, ws) ← processModules outputDir groupByPersona ms
    .ok ⟨w, Option.none, ws⟩

/-- A cited evidence file entry the generator can process without raising:
a dict (its `path` / `line_numbers` values may be anything; they are only
interpolated). -/
def wfFileRef : PyValue → Bool
  | .pdict _ => true
  | _ => false

/-- A business rule the generator can process without raising: a dict whose
`rule` (default `""`) is a string and whose `files` (default `[]`) is a
list of dicts. -/
def wfRule : PyValue → Bool
  | .pdict kvs =>
    (match (assocGet kvs "rule").getD (.pstr "") with
      | .pstr _ => true
      | _ => false)
    && (match (assocGet kvs "files").getD (.plist .nil) with
      | .plist xs => (itemsToList xs).all wfFileRef
      | _ => false)
  | _ => false

/-- A module the generator can process without raising: a dict whose `name`
(default `"Module"`) is a string and whose `business_rules` (default `[]`)
is a list of well-formed rules. -/
def wfModule : PyValue → Bool
  | .pdict kvs =>
    (match (assocGet kvs "name").getD (.pstr "Module") with
      | .pstr _ => true
      | _ => false)
    && (match (assocGet kvs "business_rules").getD (.plist .nil) with
      | .plist xs => (itemsToList xs).all wfRule
      | _ => false)
  | _ => false

/-- A well-formed analysis document: a JSON object whose `modules` field
(default `[]`) is a list of well-formed modules. -/
def wfDoc : PyValue → Bool
  | .pdict kvs =>
    (match (assocGet kvs "modules").getD (.plist .nil) with
      | .plist xs => (itemsToList xs).all wfModule
      | _ => false)
  | _ => false

/-- Embeds `RobustSearchRepoPatternsTool._try_parse` after `json.loads`: a dict
with both `repo_root` and `patterns` keys is the config; for an array, the
first such dict; anything else yields `None`.  (`json.loads` itself is
abstracted as the optional `PyValue` it returns.) -/
def firstConfig : List PyValue → Option PyFields
  | [] => Option.none
  | (.pdict kvs) :: rest =>
    if (assocGet kvs "repo_root").isSome && (assocGet kvs "patterns").isSome then some kvs
    else firstConfig rest
  | _ :: rest => firstConfig rest

/-- Strict parse stage of the lenient orchestrator. -/
def robustTryParse : Option PyValue → Option PyFields
  | Option.none => Option.none
  | some (.pdict kvs) =>
    if (assocGet kvs "repo_root").isSome && (assocGet kvs "patterns").isSome then some kvs
    else Option.none
  | some (.plist xs) => firstConfig (itemsToList xs)
  | some _ => Option.none

/-- The five default pattern strings of
`RobustSearchRepoPatternsTool._heuristic_extract` (the source writes the
last two as raw strings containing doubled backslashes; the literal text
is preserved here). -/
def heuristicDefaultPatterns : List String :=
  ["export default", "export const", "export function",
   "class\\\\s+\\\\w+", "def\\\\s+\\\\w+\\\\("]

/-- Embeds `RobustSearchRepoPatternsTool._heuristic_extract`: a best-effort config
from a path-like token found in the payload (the `re.search` for a
path-like token is abstracted as its optional `group(0)` result), with the
fixed default pattern list. -/
def heuristicExtract (pathTok : Option String) : PyFields :=
  .cons "repo_root" (.pstr (pathTok.getD "."))
    (.cons "patterns"
      (.plist (heuristicDefaultPatterns.foldr (fun s acc => .cons (.pstr s) acc) .nil))
      .nil)

/-- Embeds `cfg.get(key, default)` on the config dict. -/
def cfgGet (kvs : PyFields) (key : String) (dflt : PyValue) : PyValue :=
  (assocGet kvs key).getD dflt

/-- Embeds `[re.compile(p) for p in patterns if p]` on one candidate element:
falsy elements are skipped; truthy non-strings make `re.compile` raise
`TypeError`.  `re.compile` on a (valid) pattern string is abstracted by
the supplied `pyCompile`; `re.error` on an invalid regex string is not
modelled (no claim exercises one). -/
def compilePatternList (pyCompile : String → Pattern) :
    List PyValue → Except PyErr (List Pattern)
  | [] => .ok []
  | v :: rest =>
    if !pyTruthy v then compilePatternList pyCompile rest
    else
      match v with
      | .pstr s => do
        let r ← compilePatternList pyCompile rest
        .ok (pyCompile s :: r)
      | _ => .error .typeError

/-- Embeds `[re.compile(p) for p in patterns if p]`: iterate the `patterns` value
(list items, string characters, or dict keys; otherwise `TypeError`) and
compile each truthy element. -/
def compilePatterns (pyCompile : String → Pattern) (v : PyValue) :
    Except PyErr (List Pattern) := do
  let items ← pyIterE v
  compilePatternList pyCompile items

/-- Embeds the requirement that `Path(repo_root)` and the subsequent walk get
a string root
(`TypeError` otherwise). -/
def asRootE : PyValue → Except PyErr String
  | .pstr s => .ok s
  | _ => .error .typeError

/-- Checks that every glob item is a string (else `fnmatch` would raise
`TypeError` — see `globListE` for the laziness caveat). -/
def globStrItems : List PyValue → Except PyErr (List String)
  | [] => .ok []
  | (.pstr s) :: rest => do
    let r ← globStrItems rest
    .ok (s :: r)
  | _ :: _ => .error .typeError

/-- Reads an `include_globs` / `exclude_globs` value as the glob-string
list the walker iterates: `None` and falsy values give `[]` (the inner
tool then applies its defaults); a list must contain strings; a string
yields its characters.  Python would only raise on the first `fnmatch`
call during the walk; this model raises eagerly — the difference is
unobservable in the claims (their runs use absent or well-typed glob
lists). -/
def globListE : Option PyValue → Except PyErr (List String)
  | Option.none => .ok []
  | some v =>
    if !pyTruthy v then .ok []
    else
      match v with
      | .plist xs => globStrItems (itemsToList xs)
      | .pstr s => .ok (s.data.map (fun c => String.mk [c]))
      | .pdict kvs => .ok (fieldKeys kvs)
      | _ => .error .typeError

/-- A numeric config field: missing uses the default; ints (and bools,
which are ints in Python) are accepted.  Negative values and the lazy
`TypeError` Python raises when comparing a non-int are not modelled (no
claim exercises them). -/
def cfgNatE (kvs : PyFields) (key : String) (dflt : Nat) : Except PyErr Nat :=
  match assocGet kvs key with
  | Option.none => .ok dflt
  | some (.pint n) => .ok n.toNat
  | some (.pbool b) => .ok (cond b 1 0)
  | some _ => .error .typeError

/-- Embeds `RobustSearchRepoPatternsTool._run`: strict parse, else heuristic
extraction; then delegate to `SearchRepoPatternsTool._run` with the
config's values (compiling the patterns first — an empty compiled list
short-circuits to the empty result before the root is touched, exactly as
in the inner tool). -/
def robust_search_repo_patterns (pyCompile : String → Pattern)
    (loadsResult : Option PyValue) (pathTok : Option String)
    (tree : EntryList) : Except PyErr ScanAcc := do
  let cfg := (robustTryParse loadsResult).getD (heuristicExtract pathTok)
  let pats ← compilePatterns pyCompile (cfgGet cfg "patterns" (.plist .nil))
  if pats.isEmpty then .ok ScanAcc.init
  else do
    let root ← asRootE (cfgGet cfg "repo_root" (.pstr "."))
    let inc ← globListE (assocGet cfg "include_globs")
    let exc ← globListE (assocGet cfg "exclude_globs")
    let maxM ← cfgNatE cfg "max_matches_per_file" 5
    let ctx ← cfgNatE cfg "context_lines" 2
    let maxF ← cfgNatE cfg "max_files" 2000
    .ok (runSearch root pats inc exc maxM ctx maxF tree)

/- Auxiliary definitions for stating the pruning claims. -/

mutual
/-- Replace the contents of every excluded directory (its relative path
with a trailing separator fnmatch-matches an exclude glob) by the empty
forest, recursing into the rest of the tree. -/
def eraseEntry (ex : List String) (segs : List String) : Entry → Entry
  | .file n ls => .file n ls
  | .dir d es =>
    if pruneDir ex segs d then .dir d .nil
    else .dir d (eraseList ex (segs ++ [d]) es)

/-- Maps `eraseEntry` over a forest. -/
def eraseList (ex : List String) (segs : List String) : EntryList → EntryList
  | .nil => .nil
  | .cons e rest => .cons (eraseEntry ex segs e) (eraseList ex segs rest)
end

/-- Membership of a node in a forest. -/
inductive EntryMem : Entry → EntryList → Prop
  | head {e : Entry} {rest : EntryList} : EntryMem e (.cons e rest)
  | tail {e e' : Entry} {rest : EntryList} : EntryMem e rest → EntryMem e (.cons e' rest)

/-- States `FileIn tree segs n ls`: the tree contains, under the directory chain
`segs`, a file named `n` with content `ls`. -/
inductive FileIn : EntryList → List String → String → List String → Prop
  | here {es : EntryList} {n : String} {ls : List String} :
      EntryMem (.file n ls) es → FileIn es [] n ls
  | there {es : EntryList} {sub : EntryList} {d : String} {segs : List String}
      {n : String} {ls : List String} :
      EntryMem (.dir d sub) es → FileIn sub segs n ls → FileIn es (d :: segs) n ls

/-- No directory along the chain `segs` (relative to `base`) is pruned by
the exclude globs. -/
def prunedFree (ex : List String) : List String → List String → Bool
  | _, [] => true
  | base, d :: rest => !pruneDir ex base d && prunedFree ex (base ++ [d]) rest

/- Concrete fixtures used by counterexamples and witnesses. -/

/-- A concrete compiled pattern: one occurrence when the line contains the
literal substring TODO (regex `TODO` via `search` truthiness). -/
def patTODO : Pattern := fun l => if pyIn "TODO".data l.data then ["TODO"] else []

/-- A concrete compiled pattern matching every line once. -/
def patAll : Pattern := fun l => [l]

/-- The evidence record produced by `patTODO` on the one-line file
`["TODO\n"]` with zero context lines. -/
def cexMatch : Match := ⟨"/f", 1, 1, "TODO"⟩

/-- A tree with a `node_modules` directory directly under the scan root,
holding a Python file that a scan pattern hits. -/
def cexNodeModulesTree : EntryList :=
  .cons (.dir "node_modules" (.cons (.file "x.py" ["TODO fix\n"]) .nil)) .nil

/-- A tree with one file at depth 1 (used for lister completeness). -/
def c9Tree : EntryList :=
  .cons (.dir "srcd" (.cons (.file "a.py" ["x\n"]) .nil)) .nil

/-- The spec's scenario-literal analysis document (module `Auth`, domain
`Security`, one rule with one cited evidence file), with the keys the code
reads (`name`, `functional_domain`, `business_rules`, `rule`, `files`,
`path`, `line_numbers`). -/
def authDoc : PyValue :=
  .pdict (.cons "modules" (.plist (.cons (
    .pdict (.cons "name" (.pstr "Auth")
      (.cons "functional_domain" (.pstr "Security")
      (.cons "business_rules" (.plist (.cons (
        .pdict (.cons "rule" (.pstr "Password must be 8+ characters")
          (.cons "files" (.plist (.cons (
            .pdict (.cons "path" (.pstr "/repo/auth.ts")
              (.cons "line_numbers" (.pstr "L10-L12") .nil))) .nil))
          .nil))) .nil))
      .nil)))) .nil)) .nil)

/-- The expected content of the generated `Auth.md`. -/
def authContent : String :=
  "Feature: Auth (Security)\n\n# Persona: Usuário\n\n" ++
  "Scenario: Password must be 8+ characters\n" ++
  "  Given uma situação relevante para a regra\n" ++
  "  When a condição descrita na regra ocorre\n" ++
  "  Then Password must be 8+ characters\n" ++
  "  # evidence: /repo/auth.ts L10-L12\n"

/-- A concrete `re.compile` abstraction for robust-tool runs in which no
pattern ever fires. -/
def pyCompileNull : String → Pattern := fun _ => fun _ => []

/-- A parsed payload whose `patterns` value is the integer 3:
`_try_parse` accepts it (both keys present), and the delegated
`[re.compile(p) for p in patterns if p]` then raises `TypeError`. -/
def badPatternsCfg : PyValue :=
  .pdict (.cons "repo_root" (.pstr ".") (.cons "patterns" (.pint 3) .nil))

/- Helper lemmas (shared across claims). -/

/-- Python substring containment agrees with list-infix. -/
theorem pyIn_iff {n h : List Char} : pyIn n h = true ↔ n <:+: h := by
  unfold pyIn
  rw [List.any_eq_true]
  constructor
  · rintro ⟨t, ht, hp⟩
    rw [List.mem_tails] at ht
    rw [List.isPrefixOf_iff_prefix] at hp
    exact hp.isInfix.trans ht.isInfix
  · intro hinf
    obtain ⟨t, hpre, hsuf⟩ := List.infix_iff_prefix_suffix.mp hinf
    exact ⟨t, (List.mem_tails t h).mpr hsuf, List.isPrefixOf_iff_prefix.mpr hpre⟩

/-- A fold preserves any predicate its step preserves. -/
theorem foldl_preserves {α β : Type} (P : α → Prop) (step : α → β → α)
    (h : ∀ a b, P a → P (step a b)) :
    ∀ (l : List β) (a : α), P a → P (l.foldl step a) := by
  intro l
  induction l with
  | nil => intro a ha; exact ha
  | cons x xs ih => intro a ha; exact ih (step a x) (h a x ha)


/-- C5: a rule text containing "administrador" (case-insensitively, i.e.
as a substring of the lowercased text) is classified `Administrador`:
`detect_persona` embeds the four ordered keyword groups with
first-match-wins and default `Usuário`, and "admin" — a prefix of
"administrador" — is in the first (Administrator) group, so the first
group always fires regardless of any other keywords in the text. -/
theorem detect_persona_administrador (s : String)
    (h : "administrador".data <:+: (pyLower s).data) :
    detect_persona s = "Administrador" := by
  have hadmin : "admin".data <:+: (pyLower s).data := by
    have hpre : "admin".data <+: "administrador".data := by decide
    exact hpre.isInfix.trans h
  have hb : pyIn "admin".data (pyLower s).data = true := pyIn_iff.mpr hadmin
  simp [detect_persona, hb]

/-- Witness for C5: a concrete rule text containing "ADMINISTRADOR" (and a
Player-group keyword) classifies as `Administrador`. -/
theorem detect_persona_administrador_witness :
    ("administrador".data <:+: (pyLower "O ADMINISTRADOR pode banir o jogador").data) ∧
    detect_persona "O ADMINISTRADOR pode banir o jogador" = "Administrador" :=
  ⟨by decide, detect_persona_administrador _ (by decide)⟩

set_option maxRecDepth 20000 in
/-- C6: on the spec's scenario-literal document (`authDoc`), the generator
in strict mode with persona grouping writes exactly one file at
`/out/Usuário/Auth.md`, whose content has the `Feature: Auth (Security)`
header, the Scenario block with generic Given/When lines and the Then line
ending in the literal rule text, and the trailing evidence comment
`# evidence: /repo/auth.ts L10-L12`. -/
theorem gherkin_scenario_literal :
    generate_gherkin_stories (.parsed authDoc) "/tmp/analysis.json" "/out" true true =
      .ok ⟨["/out/Usuário/Auth.md"], Option.none, [("/out/Usuário/Auth.md", authContent)]⟩ ∧
    pyIn "Feature: Auth (Security)\n".data authContent.data = true ∧
    pyIn ("Scenario: Password must be 8+ characters\n" ++
      "  Given uma situação relevante para a regra\n" ++
      "  When a condição descrita na regra ocorre\n" ++
      "  Then Password must be 8+ characters\n").data authContent.data = true ∧
    "  # evidence: /repo/auth.ts L10-L12\n".data <:+ authContent.data :=
  ⟨rfl, by decide, by decide, by decide⟩

/-- Per-line pattern loop emits at most one record per pattern that has an
occurrence in the line, whatever the occurrence counts are. -/
theorem scanLine_length_le (path : String) (allLines : List String)
    (idx ctx maxM : Nat) (line : String) :
    ∀ (ps : List Pattern) (cnt : Nat),
      (scanLine ps path allLines idx ctx maxM line cnt).1.length ≤
        (ps.filter (fun p => !(p line).isEmpty)).length := by
  intro ps
  induction ps with
  | nil => intro cnt; simp [scanLine]
  | cons p rest ih =>
    intro cnt
    by_cases hp : (p line).isEmpty
    · simpa [scanLine, hp] using ih cnt
    · rw [Bool.not_eq_true] at hp
      by_cases hstop : maxM ≤ cnt + 1
      · have h1 : 1 ≤ ((p :: rest).filter (fun p => !(p line).isEmpty)).length := by
          simp [List.filter_cons, hp]
        simp only [scanLine, hp, Bool.false_eq_true, if_false, if_pos hstop,
          List.length_cons, List.length_nil]
        exact h1
      · have h2 := ih (cnt + 1)
        simp only [scanLine, hp, Bool.false_eq_true, if_false, if_neg hstop,
          List.filter_cons, Bool.not_false, if_true, List.length_cons]
        simpa using Nat.succ_le_succ h2

/-- C10: in the generic scanner, each (line, pattern) pair contributes at
most one evidence record — the per-line loop counts pattern *presence*, so
a line never contributes more records than it has matching patterns, no
matter how many occurrences each pattern has within the line; the endpoint
scanner's per-line loop, by contrast, contributes exactly one record per
occurrence of every pattern. -/
theorem per_line_presence_vs_per_occurrence
    (ps : List Pattern) (path : String) (allLines : List String)
    (idx ctx maxM : Nat) (line : String) (cnt : Nat)
    (pats : List EndpointPattern) :
    (scanLine ps path allLines idx ctx maxM line cnt).1.length ≤
      (ps.filter (fun p => !(p line).isEmpty)).length ∧
    (endpointScanLine pats path idx line).length =
      (pats.map (fun kv => (kv.2 line).length)).sum := by
  constructor
  · exact scanLine_length_le path allLines idx ctx maxM line ps cnt
  · induction pats with
    | nil => simp [endpointScanLine]
    | cons kv rest ih => simp [endpointScanLine, ih]

/-- The per-line pattern loop's counter comes back as the old counter plus
the number of records it emitted, and it never passes `maxM` when it
started below it. -/
theorem scanLine_count (path : String) (allLines : List String)
    (idx ctx maxM : Nat) (line : String) :
    ∀ (ps : List Pattern) (cnt : Nat),
      (scanLine ps path allLines idx ctx maxM line cnt).2 =
        cnt + (scanLine ps path allLines idx ctx maxM line cnt).1.length ∧
      (cnt < maxM → (scanLine ps path allLines idx ctx maxM line cnt).2 ≤ maxM) := by
  intro ps
  induction ps with
  | nil =>
    intro cnt
    refine ⟨by simp [scanLine], fun h => ?_⟩
    simp only [scanLine]
    omega
  | cons p rest ih =>
    intro cnt
    by_cases hp : (p line).isEmpty
    · simpa [scanLine, hp] using ih cnt
    · rw [Bool.not_eq_true] at hp
      by_cases hstop : maxM ≤ cnt + 1
      · simp [scanLine, hp, hstop]
        omega
      · have h2 := ih (cnt + 1)
        simp only [scanLine, hp, Bool.false_eq_true, if_false, if_neg hstop,
          List.length_cons]
        constructor
        · omega
        · intro _
          exact h2.2 (by omega)

/-- The line loop never lets a file accumulate past `maxM` once it starts
below it. -/
theorem scanLinesGo_le (ps : List Pattern) (path : String) (allLines : List String)
    (ctx maxM : Nat) :
    ∀ (lines : List String) (idx cnt : Nat), cnt < maxM →
      cnt + (scanLinesGo ps path allLines ctx maxM lines idx cnt).length ≤ maxM := by
  intro lines
  induction lines with
  | nil => intro idx cnt h; simp [scanLinesGo]; omega
  | cons l rest ih =>
    intro idx cnt h
    have hc := scanLine_count path allLines idx ctx maxM l ps cnt
    by_cases hstop : maxM ≤ (scanLine ps path allLines idx ctx maxM l cnt).2
    · simp only [scanLinesGo, if_pos hstop]
      have := hc.2 h
      omega
    · simp only [scanLinesGo, if_neg hstop, List.length_append]
      have h2 := ih (idx + 1) (scanLine ps path allLines idx ctx maxM l cnt).2 (by omega)
      omega

/-- C3 (amended): for the generic multi-pattern scanner with
`maxMatchesPerFile = m ≥ 1`, no single file contributes more than `m`
evidence records, counted across all supplied patterns combined.  (The
claim's `m = 0` case fails — see the counterexample: the cap check runs
only after a record has been appended.) -/
theorem per_file_match_cap (ps : List Pattern) (ctx maxM : Nat) (path : String)
    (lines : List String) (h : 1 ≤ maxM) :
    (scanFileLines ps ctx maxM path lines).length ≤ maxM := by
  have := scanLinesGo_le ps path lines ctx maxM lines 1 0 (by omega)
  simpa [scanFileLines] using this

/-- Witness for C3: a file with two matching lines and two patterns, capped
at one record. -/
theorem per_file_match_cap_witness :
    1 ≤ 1 ∧ (scanFileLines [patAll, patAll] 0 1 "/f" ["a\n", "b\n"]).length ≤ 1 :=
  ⟨by decide, per_file_match_cap [patAll, patAll] 0 1 "/f" ["a\n", "b\n"] (by decide)⟩

/-- Counterexample for C3 as stated: with `maxMatchesPerFile = 0`, a file
whose first line matches still contributes one evidence record, because
`matches_in_file >= max_matches_per_file` is only checked after the append. -/
theorem per_file_match_cap_cex :
    (scanFileLines [patTODO] 0 0 "/f" ["TODO\n"]).length = 1 ∧
    ¬ ((scanFileLines [patTODO] 0 0 "/f" ["TODO\n"]).length ≤ 0) := by
  decide

/-- Every record the per-line pattern loop emits for line `idx` is the
canonical record computed from `idx`, the context width and the file. -/
theorem scanLine_mem (path : String) (allLines : List String)
    (idx ctx maxM : Nat) (line : String) :
    ∀ (ps : List Pattern) (cnt : Nat) (m : Match),
      m ∈ (scanLine ps path allLines idx ctx maxM line cnt).1 →
      m = ⟨path, max 1 (idx - ctx), min allLines.length (idx + ctx),
           pyStrip (String.join ((allLines.drop (max 1 (idx - ctx) - 1)).take
             (min allLines.length (idx + ctx) + 1 - max 1 (idx - ctx))))⟩ := by
  intro ps
  induction ps with
  | nil => intro cnt m hm; simp [scanLine] at hm
  | cons p rest ih =>
    intro cnt m hm
    by_cases hp : (p line).isEmpty
    · exact ih cnt m (by simpa [scanLine, hp] using hm)
    · rw [Bool.not_eq_true] at hp
      by_cases hstop : maxM ≤ cnt + 1
      · simp only [scanLine, hp, Bool.false_eq_true, if_false, if_pos hstop,
          List.mem_singleton] at hm
        exact hm
      · simp only [scanLine, hp, Bool.false_eq_true, if_false, if_neg hstop,
          List.mem_cons] at hm
        rcases hm with h | h
        · exact h
        · exact ih (cnt + 1) m h

/-- Every record the line loop emits comes from some line index `i` within
the file, and is the canonical record for `i`. -/
theorem scanLinesGo_mem (ps : List Pattern) (path : String) (allLines : List String)
    (ctx maxM : Nat) :
    ∀ (lines : List String) (idx cnt : Nat) (m : Match),
      1 ≤ idx → idx + lines.length ≤ allLines.length + 1 →
      m ∈ scanLinesGo ps path allLines ctx maxM lines idx cnt →
      ∃ i, 1 ≤ i ∧ i ≤ allLines.length ∧
        m = ⟨path, max 1 (i - ctx), min allLines.length (i + ctx),
             pyStrip (String.join ((allLines.drop (max 1 (i - ctx) - 1)).take
               (min allLines.length (i + ctx) + 1 - max 1 (i - ctx))))⟩ := by
  intro lines
  induction lines with
  | nil => intro idx cnt m _ _ hm; simp [scanLinesGo] at hm
  | cons l rest ih =>
    intro idx cnt m h1 h2 hm
    have hsplit : m ∈ (scanLine ps path allLines idx ctx maxM l cnt).1 ∨
        m ∈ scanLinesGo ps path allLines ctx maxM rest (idx + 1)
          (scanLine ps path allLines idx ctx maxM l cnt).2 := by
      by_cases hstop : maxM ≤ (scanLine ps path allLines idx ctx maxM l cnt).2
      · left
        simpa [scanLinesGo, hstop] using hm
      · simp only [scanLinesGo, if_neg hstop, List.mem_append] at hm
        exact hm
    rcases hsplit with h | h
    · refine ⟨idx, h1, ?_, scanLine_mem path allLines idx ctx maxM l ps cnt m h⟩
      simp only [List.length_cons] at h2
      omega
    · refine ih (idx + 1) _ m (by omega) ?_ h
      simp only [List.length_cons] at h2
      omega

/-- C7 (amended): every evidence record of a generic per-line scan comes
from a matching 1-based line index `i` with `line_start = max 1 (i - c)`,
`line_end = min totalLines (i + c)`, hence `1 ≤ line_start ≤ line_end ≤
totalLines`; its snippet is the joined lines of `[line_start, line_end]`
*stripped of leading and trailing whitespace* (the code applies
`.strip()`, so the claim's "snippet is the joined lines" holds only up to
that strip — see the counterexample). -/
theorem context_bounds (ps : List Pattern) (ctx maxM : Nat) (path : String)
    (lines : List String) (m : Match)
    (hm : m ∈ scanFileLines ps ctx maxM path lines) :
    ∃ i, 1 ≤ i ∧ i ≤ lines.length ∧
      m.line_start = max 1 (i - ctx) ∧
      m.line_end = min lines.length (i + ctx) ∧
      1 ≤ m.line_start ∧ m.line_start ≤ m.line_end ∧ m.line_end ≤ lines.length ∧
      m.code_snippet =
        pyStrip (String.join ((lines.drop (m.line_start - 1)).take
          (m.line_end + 1 - m.line_start))) := by
  obtain ⟨i, hi1, hi2, hrec⟩ :=
    scanLinesGo_mem ps path lines ctx maxM lines 1 0 m (by omega) (by omega)
      (by simpa [scanFileLines] using hm)
  subst hrec
  refine ⟨i, hi1, hi2, rfl, rfl, ?_, ?_, ?_, rfl⟩
  · simp
  · simp only [Match.line_start, Match.line_end]
    omega
  · simp only [Match.line_end]
    omega

/-- Witness for C7: the record from the one-line file `["TODO\n"]`. -/
theorem context_bounds_witness :
    (cexMatch ∈ scanFileLines [patTODO] 0 5 "/f" ["TODO\n"]) ∧
    (∃ i, 1 ≤ i ∧ i ≤ (["TODO\n"] : List String).length ∧
      cexMatch.line_start = max 1 (i - 0) ∧
      cexMatch.line_end = min (["TODO\n"] : List String).length (i + 0) ∧
      1 ≤ cexMatch.line_start ∧ cexMatch.line_start ≤ cexMatch.line_end ∧
      cexMatch.line_end ≤ (["TODO\n"] : List String).length ∧
      cexMatch.code_snippet =
        pyStrip (String.join (((["TODO\n"] : List String).drop (cexMatch.line_start - 1)).take
          (cexMatch.line_end + 1 - cexMatch.line_start)))) :=
  ⟨by decide, context_bounds [patTODO] 0 5 "/f" ["TODO\n"] cexMatch (by decide)⟩

/-- Counterexample for C7 as stated: the snippet is the *stripped* join of
the lines in range, so on a line with leading whitespace (or a trailing
newline) it differs from the joined lines themselves. -/
theorem context_bounds_cex :
    scanFileLines [patAll] 0 5 "/f" ["  x\n"] = [⟨"/f", 1, 1, "x"⟩] ∧
    String.join (((["  x\n"] : List String).drop 0).take 1) = "  x\n" ∧
    ("x" : String) ≠ "  x\n" := by
  decide

/-- The filenames loop opens a file only while the counter is at most
`max_files`: the opened-list length stays below both the counter and the
cap. -/
theorem searchWalkFiles_opened (cfg : SearchCfg) (segs : List String) :
    ∀ (fs : List (String × List String)) (acc : ScanAcc),
      acc.opened.length ≤ acc.fileCount → acc.opened.length ≤ cfg.maxFiles →
      (searchWalkFiles cfg segs fs acc).opened.length ≤
          (searchWalkFiles cfg segs fs acc).fileCount ∧
        (searchWalkFiles cfg segs fs acc).opened.length ≤ cfg.maxFiles := by
  intro fs
  induction fs with
  | nil => intro acc h1 h2; exact ⟨h1, h2⟩
  | cons f rest ih =>
    intro acc h1 h2
    obtain ⟨fname, flines⟩ := f
    by_cases hex : anyMatch cfg.excludeGlobs (relOf segs fname)
    · simpa [searchWalkFiles, hex] using ih acc h1 h2
    · by_cases hinc : (!cfg.includeGlobs.isEmpty && !anyMatch cfg.includeGlobs (relOf segs fname))
      · simpa [searchWalkFiles, hex, hinc] using ih acc h1 h2
      · by_cases hcap : cfg.maxFiles < acc.fileCount + 1
        · simp only [searchWalkFiles, hex, Bool.false_eq_true, if_false, hinc,
            if_pos hcap]
          refine ⟨?_, h2⟩
          show acc.opened.length ≤ acc.fileCount + 1
          omega
        · simp only [searchWalkFiles, hex, Bool.false_eq_true, if_false, hinc,
            if_neg hcap]
          refine ih _ ?_ ?_ <;> simp [List.length_append] <;> omega

/-- The whole walk opens at most `max_files` files. -/
theorem searchWalkFuel_opened (cfg : SearchCfg) :
    ∀ (fuel : Nat) (segs : List String) (es : EntryList) (acc : ScanAcc),
      acc.opened.length ≤ acc.fileCount → acc.opened.length ≤ cfg.maxFiles →
      (searchWalkFuel fuel cfg segs es acc).opened.length ≤
          (searchWalkFuel fuel cfg segs es acc).fileCount ∧
        (searchWalkFuel fuel cfg segs es acc).opened.length ≤ cfg.maxFiles := by
  intro fuel
  induction fuel with
  | zero => intro segs es acc h1 h2; exact ⟨h1, h2⟩
  | succ fuel ih =>
    intro segs es acc h1 h2
    simp only [searchWalkFuel]
    refine foldl_preserves
      (fun (a : ScanAcc) => a.opened.length ≤ a.fileCount ∧ a.opened.length ≤ cfg.maxFiles)
      (fun (a : ScanAcc) (de : String × EntryList) =>
        if a.stopped then a
        else if pruneDir cfg.excludeGlobs segs de.1 then a
        else searchWalkFuel fuel cfg (segs ++ [de.1]) de.2 a)
      ?_ (dirsOf es) _ ?_
    · intro a de hP
      by_cases hs : a.stopped
      · simpa [hs] using hP
      · by_cases hpr : pruneDir cfg.excludeGlobs segs de.1
        · simpa [hs, hpr] using hP
        · simpa [hs, hpr] using ih (segs ++ [de.1]) de.2 a hP.1 hP.2
    · have hfiles := searchWalkFiles_opened cfg segs (filesOf es) acc h1 h2
      by_cases hcap : cfg.maxFiles < (searchWalkFiles cfg segs (filesOf es) acc).fileCount
      · simpa [hcap] using hfiles
      · simpa [hcap] using hfiles

/-- C2: for every generic pattern scan with `maxFiles = k`, at most `k`
files have their content opened and read — the walk counts a candidate
file first and breaks before opening once the counter exceeds the cap —
and the scan still returns the results accumulated so far (the embedding
is a total function into `ScanAcc`).  The `opened` field records one entry
per file-open in walk order, so the number of distinct opened files is
bounded by its length. -/
theorem max_files_cap (root : String) (patterns : List Pattern)
    (includeGlobs excludeGlobs : List String) (maxM ctx k : Nat)
    (tree : EntryList) :
    (runSearch root patterns includeGlobs excludeGlobs maxM ctx k tree).opened.length ≤ k := by
  unfold runSearch
  by_cases hp : patterns.isEmpty
  · simp [hp, ScanAcc.init]
  · simp only [hp, Bool.false_eq_true, if_false]
    exact (searchWalkFuel_opened _ _ _ _ ScanAcc.init (by simp [ScanAcc.init])
      (by simp [ScanAcc.init])).2


/-- List-level induction for `EntryList` (the mutual recursor with a
trivial motive on `Entry`). -/
theorem entryList_induction {motive : EntryList → Prop}
    (hnil : motive .nil)
    (hcons : ∀ e rest, motive rest → motive (.cons e rest)) :
    ∀ es, motive es :=
  fun es =>
    @EntryList.rec (fun _ => True) motive
      (fun _ _ => trivial) (fun _ _ _ => trivial) hnil
      (fun e rest _ hr => hcons e rest hr) es

/-- Erasing excluded directories' contents does not change the filenames of
a directory. -/
theorem filesOf_erase (ex segs : List String) :
    ∀ es : EntryList, filesOf (eraseList ex segs es) = filesOf es := by
  intro es
  induction es using entryList_induction with
  | hnil => rfl
  | hcons e rest ih =>
    cases e with
    | file n ls => simp [eraseList, eraseEntry, filesOf, ih]
    | dir d es' =>
      by_cases hd : pruneDir ex segs d <;>
        simp [eraseList, eraseEntry, filesOf, ih, hd]

/-- Erasing excluded directories' contents keeps the dirnames, erasing each
subtree (to nothing when the directory itself is excluded). -/
theorem dirsOf_erase (ex segs : List String) :
    ∀ es : EntryList, dirsOf (eraseList ex segs es) =
      (dirsOf es).map (fun de =>
        (de.1, if pruneDir ex segs de.1 then EntryList.nil
               else eraseList ex (segs ++ [de.1]) de.2)) := by
  intro es
  induction es using entryList_induction with
  | hnil => rfl
  | hcons e rest ih =>
    cases e with
    | file n ls => simp [eraseList, eraseEntry, dirsOf, ih]
    | dir d es' =>
      by_cases hd : pruneDir ex segs d <;>
        simp [eraseList, eraseEntry, dirsOf, ih, hd]

/-- The scan walk cannot observe anything beneath an excluded directory:
replacing every excluded directory's contents by the empty forest leaves
the walk's entire outcome unchanged. -/
theorem searchWalkFuel_erase (cfg : SearchCfg) :
    ∀ (fuel : Nat) (segs : List String) (es : EntryList) (acc : ScanAcc),
      searchWalkFuel fuel cfg segs (eraseList cfg.excludeGlobs segs es) acc =
        searchWalkFuel fuel cfg segs es acc := by
  intro fuel
  induction fuel with
  | zero => intro segs es acc; rfl
  | succ fuel ih =>
    intro segs es acc
    simp only [searchWalkFuel, filesOf_erase, dirsOf_erase, List.foldl_map]
    congr 1
    funext a de
    by_cases hs : a.stopped
    · simp [hs]
    · by_cases hpr : pruneDir cfg.excludeGlobs segs de.1
      · simp [hs, hpr]
      · simp only [hs, Bool.false_eq_true, if_false, hpr, if_neg]
        exact ih (segs ++ [de.1]) de.2 a

/-- C1 (amended): under the code's `fnmatch` semantics, pruning is sound —
for every config and tree, the scan output is unchanged when the contents
of every directory whose relative path + "/" fnmatch-matches an exclude
glob are removed, so the walker never descends into such a directory and
no file beneath it can appear in any scan output.  But `fnmatch` treats
`*` as crossing path separators, so `**/node_modules/**` requires a
literal `/` *before* `node_modules`: it matches `a/node_modules/` (depth
≥ 1) and does not match `node_modules/` directly under the scan root —
the depth-0 case the original claim includes fails (see the
counterexample). -/
theorem pruning_invariant :
    fnmatch "**/node_modules/**" "node_modules/" = false ∧
    fnmatch "**/node_modules/**" "a/node_modules/" = true ∧
    ∀ (cfg : SearchCfg) (fuel : Nat) (segs : List String) (es : EntryList) (acc : ScanAcc),
      searchWalkFuel fuel cfg segs (eraseList cfg.excludeGlobs segs es) acc =
        searchWalkFuel fuel cfg segs es acc :=
  ⟨by decide, by decide, fun cfg fuel segs es acc => searchWalkFuel_erase cfg fuel segs es acc⟩

/-- Counterexample for C1 as stated: with the default exclude list (which
contains `**/node_modules/**`) and include glob `**/*.py`, a scan of a
tree whose root directly contains `node_modules/x.py` returns evidence
from that file — the directory `node_modules` does match the exclude glob
under the spec's segment-glob semantics (`specGlobMatches`), yet the
walker descends into it because `fnmatch` needs a `/` before
`node_modules`. -/
theorem pruning_invariant_cex :
    specGlobMatches "**/node_modules/**" "node_modules/" = true ∧
    List.contains searchDefaultExcludes "**/node_modules/**" = true ∧
    (runSearch "/repo" [patTODO] ["**/*.py"] [] 5 2 2000 cexNodeModulesTree).results =
      [⟨"/repo/node_modules/x.py", 1, 1, "TODO fix"⟩] := by
  refine ⟨by decide, by decide, ?_⟩
  decide

/-- A lone `*` matches anything. -/
theorem globMatch_star_all (s : List Char) : globMatch ['*'] s = true := by
  simp only [globMatch, List.any_eq_true]
  exact ⟨[], (List.mem_tails [] s).mpr List.nil_suffix, rfl⟩

/-- A leading `*` matches whenever the rest of the pattern matches some
suffix. -/
theorem globMatch_star_of {ps : List Char} {s t : List Char}
    (hsuf : t <:+ s) (h : globMatch ps t = true) :
    globMatch ('*' :: ps) s = true := by
  simp only [globMatch, List.any_eq_true]
  exact ⟨t, (List.mem_tails t s).mpr hsuf, h⟩

/-- The default include glob `**/*` fnmatch-matches exactly the relative
paths containing a separator; here the direction needed: a path with a
`/` matches. -/
theorem globMatch_slash {s : List Char} (h : '/' ∈ s) :
    globMatch "**/*".data s = true := by
  obtain ⟨a, b, rfl⟩ := List.append_of_mem h
  show globMatch ('*' :: '*' :: '/' :: '*' :: []) (a ++ '/' :: b) = true
  apply globMatch_star_of (List.suffix_refl _)
  apply globMatch_star_of (t := '/' :: b) ⟨a, rfl⟩
  exact globMatch_star_all b

/-- A file node of a forest appears among its filenames. -/
theorem entryMem_filesOf {n : String} {ls : List String} :
    ∀ {es : EntryList}, EntryMem (.file n ls) es → (n, ls) ∈ filesOf es := by
  intro es hmem
  induction hmem with
  | head => simp [filesOf]
  | tail hrest ih =>
    rename_i e' rest'
    cases e' with
    | file n' ls' => simp [filesOf, ih]
    | dir d' es' => simpa [filesOf] using ih

/-- A directory node of a forest appears among its dirnames. -/
theorem entryMem_dirsOf {d : String} {sub : EntryList} :
    ∀ {es : EntryList}, EntryMem (.dir d sub) es → (d, sub) ∈ dirsOf es := by
  intro es hmem
  induction hmem with
  | head => simp [dirsOf]
  | tail hrest ih =>
    rename_i e' rest'
    cases e' with
    | file n' ls' => simpa [dirsOf] using ih
    | dir d' es' => simp [dirsOf, ih]

/-- Every node counts at least one. -/
theorem entrySize_pos (e : Entry) : 1 ≤ entrySize e := by
  cases e <;> simp [entrySize]

/-- A member's size is bounded by the forest's size. -/
theorem entryMem_size {e : Entry} :
    ∀ {es : EntryList}, EntryMem e es → entrySize e ≤ entryListSize es := by
  intro es hmem
  induction hmem with
  | head => simp [entryListSize]
  | tail hrest ih =>
    rename_i e' rest'
    have := entrySize_pos e'
    simp only [entryListSize]
    omega

/-- A file's directory depth is strictly below the tree's node count. -/
theorem fileIn_depth {tree : EntryList} {segs : List String} {n : String}
    {ls : List String} (h : FileIn tree segs n ls) :
    segs.length < entryListSize tree := by
  induction h with
  | here hmem =>
    have := entryMem_size hmem
    simp only [entrySize] at this
    simpa using Nat.lt_of_lt_of_le (by omega) this
  | there hmem hsub ih =>
    have := entryMem_size hmem
    simp only [entrySize] at this
    simp only [List.length_cons]
    omega

/-- The lister's filenames loop only ever appends. -/
theorem listWalkFiles_mono (inc exc : List String) (root : String)
    (segs : List String) :
    ∀ (fs : List (String × List String)) (acc : List String) (x : String),
      x ∈ acc → x ∈ listWalkFiles inc exc root segs fs acc := by
  intro fs
  induction fs with
  | nil => intro acc x hx; exact hx
  | cons f rest ih =>
    intro acc x hx
    obtain ⟨fname, flines⟩ := f
    by_cases hex : anyMatch exc (relOf segs fname)
    · simpa [listWalkFiles, hex] using ih acc x hx
    · by_cases hinc : (!inc.isEmpty && !anyMatch inc (relOf segs fname))
      · simpa [listWalkFiles, hex, hinc] using ih acc x hx
      · simp only [listWalkFiles, hex, Bool.false_eq_true, if_false, hinc]
        exact ih _ x (List.mem_append_left _ hx)

/-- A directory file passing the exclude and include tests ends up in the
lister's accumulator. -/
theorem listWalkFiles_mem (inc exc : List String) (root : String)
    (segs : List String) {n : String} {ls : List String} :
    ∀ (fs : List (String × List String)) (acc : List String),
      (n, ls) ∈ fs →
      anyMatch exc (relOf segs n) = false →
      (!inc.isEmpty && !anyMatch inc (relOf segs n)) = false →
      absOf root (relOf segs n) ∈ listWalkFiles inc exc root segs fs acc := by
  intro fs
  induction fs with
  | nil => intro acc hmem _ _; simp at hmem
  | cons f rest ih =>
    intro acc hmem hexc hinc
    rcases List.mem_cons.mp hmem with heq | hrest
    · subst heq
      simp only [listWalkFiles, hexc, Bool.false_eq_true, if_false, hinc]
      exact listWalkFiles_mono inc exc root segs rest _ _
        (List.mem_append_right _ (List.mem_singleton.mpr rfl))
    · obtain ⟨fname, flines⟩ := f
      by_cases hex : anyMatch exc (relOf segs fname)
      · simpa [listWalkFiles, hex] using ih acc hrest hexc hinc
      · by_cases hin : (!inc.isEmpty && !anyMatch inc (relOf segs fname))
        · simpa [listWalkFiles, hex, hin] using ih acc hrest hexc hinc
        · simp only [listWalkFiles, hex, Bool.false_eq_true, if_false, hin]
          exact ih _ hrest hexc hinc

/-- The lister's walk only ever appends. -/
theorem listWalkFuel_mono (inc exc : List String) (root : String) :
    ∀ (fuel : Nat) (segs : List String) (es : EntryList) (acc : List String)
      (x : String), x ∈ acc → x ∈ listWalkFuel fuel inc exc root segs es acc := by
  intro fuel
  induction fuel with
  | zero => intro _ _ acc x hx; exact hx
  | succ fuel ih =>
    intro segs es acc x hx
    simp only [listWalkFuel]
    refine foldl_preserves (fun a => x ∈ a)
      (fun (a : List String) (de : String × EntryList) =>
        if pruneDir exc segs de.1 then a
        else listWalkFuel fuel inc exc root (segs ++ [de.1]) de.2 a)
      ?_ (dirsOf es) _ ?_
    · intro a de hxa
      by_cases hpr : pruneDir exc segs de.1
      · simpa [hpr] using hxa
      · simpa [hpr] using ih (segs ++ [de.1]) de.2 a x hxa
    · exact listWalkFiles_mono inc exc root segs (filesOf es) acc x hx

/-- Reaching a distinguished element through a fold whose steps are
monotone. -/
theorem foldl_mem_of_elem {β : Type} (x : String)
    (step : List String → β → List String)
    (hmono : ∀ a b, x ∈ a → x ∈ step a b) (y : β)
    (hy : ∀ a, x ∈ step a y) :
    ∀ (l : List β) (a : List String), y ∈ l → x ∈ l.foldl step a := by
  intro l
  induction l with
  | nil => intro a hmem; simp at hmem
  | cons z rest ih =>
    intro a hmem
    rcases List.mem_cons.mp hmem with heq | hrest
    · subst heq
      exact foldl_preserves (fun a => x ∈ a) step hmono rest _ (hy a)
    · exact ih (step a z) hrest

/-- Completeness of the lister's walk: a file whose directory chain is
never pruned and whose relative path passes the exclude and include tests
appears in the walk's output, for any fuel exceeding its depth. -/
theorem listWalk_complete (inc exc : List String) (root : String)
    {tree : EntryList} {segs : List String} {n : String} {ls : List String}
    (hfile : FileIn tree segs n ls) :
    ∀ (fuel : Nat) (base : List String) (acc : List String),
      segs.length < fuel →
      prunedFree exc base segs = true →
      anyMatch exc (relOf (base ++ segs) n) = false →
      (!inc.isEmpty && !anyMatch inc (relOf (base ++ segs) n)) = false →
      absOf root (relOf (base ++ segs) n) ∈
        listWalkFuel fuel inc exc root base tree acc := by
  induction hfile with
  | here hmem =>
    rename_i es₀ n₀ ls₀
    intro fuel base acc hfuel hpf hexc hinc
    cases fuel with
    | zero => omega
    | succ fuel =>
      simp only [List.append_nil] at hexc hinc ⊢
      simp only [listWalkFuel]
      refine foldl_preserves (fun a => absOf root (relOf base n₀) ∈ a)
        (fun (a : List String) (de : String × EntryList) =>
          if pruneDir exc base de.1 then a
          else listWalkFuel fuel inc exc root (base ++ [de.1]) de.2 a)
        ?_ (dirsOf _) _ ?_
      · intro a de hxa
        by_cases hpr : pruneDir exc base de.1
        · simpa [hpr] using hxa
        · simpa [hpr] using
            listWalkFuel_mono inc exc root fuel (base ++ [de.1]) de.2 a _ hxa
      · exact listWalkFiles_mem inc exc root base (filesOf _) acc
          (entryMem_filesOf hmem) hexc hinc
  | there hmem hsub ih =>
    intro fuel base acc hfuel hpf hexc hinc
    cases fuel with
    | zero => omega
    | succ fuel =>
      rename_i es sub d segs' n' ls'
      have happ : base ++ d :: segs' = (base ++ [d]) ++ segs' := by simp
      rw [happ] at hexc hinc ⊢
      simp only [prunedFree, Bool.and_eq_true, Bool.not_eq_true'] at hpf
      simp only [listWalkFuel]
      refine foldl_mem_of_elem _
        (fun (a : List String) (de : String × EntryList) =>
          if pruneDir exc base de.1 then a
          else listWalkFuel fuel inc exc root (base ++ [de.1]) de.2 a)
        ?_ (d, sub) ?_ (dirsOf es) _ (entryMem_dirsOf hmem)
      · intro a de hxa
        by_cases hpr : pruneDir exc base de.1
        · simpa [hpr] using hxa
        · simpa [hpr] using
            listWalkFuel_mono inc exc root fuel (base ++ [de.1]) de.2 a _ hxa
      · intro a
        simp only [hpf.1, Bool.false_eq_true, if_false]
        refine ih fuel (base ++ [d]) a ?_ hpf.2 hexc hinc
        simp only [List.length_cons] at hfuel
        omega

/-- C9 (amended): when the generic file lister is invoked without a
caller-supplied include glob it uses `["**/*"]`, and — because under
`fnmatch` the pattern `**/*` requires a path separator — this means
"include every file at depth ≥ 1": every file under some directory chain
whose directories are not pruned and whose relative path is not
exclude-matched appears in `_scan_local_fs`'s list (which `_run` then
truncates to `maxFiles`).  Files directly in the root directory are *not*
included — see the counterexample. -/
theorem include_everything (root : String) (exc : List String)
    (tree : EntryList) (d : String) (segs : List String) (n : String)
    (ls : List String)
    (hfile : FileIn tree (d :: segs) n ls)
    (hpf : prunedFree exc [] (d :: segs) = true)
    (hexc : anyMatch exc (relOf (d :: segs) n) = false) :
    absOf root (relOf (d :: segs) n) ∈ scanLocalFs root ["**/*"] exc tree := by
  have hdepth := fileIn_depth hfile
  have hinc : (!(["**/*"] : List String).isEmpty &&
      !anyMatch ["**/*"] (relOf (d :: segs) n)) = false := by
    have hslash : '/' ∈ (relOf (d :: segs) n).data := by
      show '/' ∈ (d ++ "/" ++ relOf segs n).data
      rw [String.data_append, String.data_append]
      exact List.mem_append_left _ (List.mem_append_right _ (by simp))
    have : anyMatch ["**/*"] (relOf (d :: segs) n) = true := by
      simp only [anyMatch, List.any_cons, List.any_nil, Bool.or_false]
      exact globMatch_slash hslash
    simp [this]
  have := listWalk_complete ["**/*"] exc root hfile
    (entryListSize tree + 1) [] [] (by omega) hpf
    (by simpa using hexc) (by simpa using hinc)
  simpa [scanLocalFs] using this

/-- Witness for C9: the file `srcd/a.py` at depth 1 appears in the
lister's output with the default exclude globs. -/
theorem include_everything_witness :
    prunedFree ["**/.git/**", "**/node_modules/**", "**/.venv/**"] [] ["srcd"] = true ∧
    anyMatch ["**/.git/**", "**/node_modules/**", "**/.venv/**"] (relOf ["srcd"] "a.py") = false ∧
    absOf "/repo" (relOf ["srcd"] "a.py") ∈
      scanLocalFs "/repo" ["**/*"] ["**/.git/**", "**/node_modules/**", "**/.venv/**"] c9Tree :=
  ⟨by decide, by decide,
    include_everything "/repo" ["**/.git/**", "**/node_modules/**", "**/.venv/**"]
      c9Tree "srcd" [] "a.py" ["x\n"]
      (FileIn.there EntryMem.head (FileIn.here EntryMem.head))
      (by decide) (by decide)⟩

/-- Counterexample for C9 as stated: a file directly in the root directory
is not matched by any default exclude glob, yet the lister invoked without
include globs returns the empty list — the defaulted include `**/*`
requires a separator under `fnmatch`. -/
theorem include_everything_cex :
    anyMatch ["**/.git/**", "**/node_modules/**", "**/.venv/**"] "a.py" = false ∧
    listRepositoryFiles "/repo" [] [] 5000 (.cons (.file "a.py" ["x\n"]) .nil) = [] := by
  decide

/-- Evidence-comment composition succeeds on a list of dict file entries. -/
theorem evidenceLines_ok :
    ∀ (frefs : List PyValue), (∀ f ∈ frefs, wfFileRef f = true) →
      ∃ ls, evidenceLines frefs = .ok ls := by
  intro frefs
  induction frefs with
  | nil => intro _; exact ⟨[], rfl⟩
  | cons fref rest ih =>
    intro hwf
    obtain ⟨ls, hls⟩ := ih (fun f hf => hwf f (List.mem_cons_of_mem _ hf))
    have hfr := hwf fref (List.mem_cons_self _ _)
    cases fref with
    | pdict kvs =>
      refine ⟨("  # evidence: " ++ pyStrOf ((assocGet kvs "path").getD (.pstr "")) ++
        " " ++ pyStrOf ((assocGet kvs "line_numbers").getD (.pstr ""))) :: ls, ?_⟩
      simp only [evidenceLines, pyGetE, Bind.bind, Except.bind, hls]
    | pnone => simp [wfFileRef] at hfr
    | pbool b => simp [wfFileRef] at hfr
    | pint k => simp [wfFileRef] at hfr
    | pstr s => simp [wfFileRef] at hfr
    | plist xs => simp [wfFileRef] at hfr

/-- A well-formed rule's `rule` field (under any string default) is a
string. -/
theorem wfRule_rule {kvs : PyFields} (h : wfRule (.pdict kvs) = true)
    (dflt : String) :
    ∃ s, (assocGet kvs "rule").getD (.pstr dflt) = .pstr s := by
  cases hv : assocGet kvs "rule" with
  | none => exact ⟨dflt, rfl⟩
  | some v =>
    simp only [wfRule, hv, Option.getD_some, Bool.and_eq_true] at h
    cases v with
    | pstr s => exact ⟨s, rfl⟩
    | pnone => simp at h
    | pbool b => simp at h
    | pint k => simp at h
    | plist xs => simp at h
    | pdict kvs' => simp at h

/-- A well-formed rule's `files` field is a list of well-formed file
entries. -/
theorem wfRule_files {kvs : PyFields} (h : wfRule (.pdict kvs) = true) :
    ∃ xs, (assocGet kvs "files").getD (.plist .nil) = .plist xs ∧
      ∀ f ∈ itemsToList xs, wfFileRef f = true := by
  cases hv : assocGet kvs "files" with
  | none => exact ⟨.nil, rfl, by simp [itemsToList]⟩
  | some v =>
    simp only [wfRule, hv, Option.getD_some, Bool.and_eq_true] at h
    cases v with
    | plist xs => exact ⟨xs, rfl, List.all_eq_true.mp h.2⟩
    | pnone => simp at h
    | pbool b => simp at h
    | pint k => simp at h
    | pstr s => simp at h
    | pdict kvs' => simp at h

/-- A well-formed module's `name` field is a string. -/
theorem wfModule_name {kvs : PyFields} (h : wfModule (.pdict kvs) = true) :
    ∃ s, (assocGet kvs "name").getD (.pstr "Module") = .pstr s := by
  cases hv : assocGet kvs "name" with
  | none => exact ⟨"Module", rfl⟩
  | some v =>
    simp only [wfModule, hv, Option.getD_some, Bool.and_eq_true] at h
    cases v with
    | pstr s => exact ⟨s, rfl⟩
    | pnone => simp at h
    | pbool b => simp at h
    | pint k => simp at h
    | plist xs => simp at h
    | pdict kvs' => simp at h

/-- A well-formed module's `business_rules` field is a list of well-formed
rules. -/
theorem wfModule_rules {kvs : PyFields} (h : wfModule (.pdict kvs) = true) :
    ∃ xs, (assocGet kvs "business_rules").getD (.plist .nil) = .plist xs ∧
      ∀ br ∈ itemsToList xs, wfRule br = true := by
  cases hv : assocGet kvs "business_rules" with
  | none => exact ⟨.nil, rfl, by simp [itemsToList]⟩
  | some v =>
    simp only [wfModule, hv, Option.getD_some, Bool.and_eq_true] at h
    cases v with
    | plist xs => exact ⟨xs, rfl, List.all_eq_true.mp h.2⟩
    | pnone => simp at h
    | pbool b => simp at h
    | pint k => simp at h
    | pstr s => simp at h
    | pdict kvs' => simp at h

/-- A well-formed document's `modules` field is a list of well-formed
modules. -/
theorem wfDoc_modules {kvs : PyFields} (h : wfDoc (.pdict kvs) = true) :
    ∃ xs, (assocGet kvs "modules").getD (.plist .nil) = .plist xs ∧
      ∀ m ∈ itemsToList xs, wfModule m = true := by
  cases hv : assocGet kvs "modules" with
  | none => exact ⟨.nil, rfl, by simp [itemsToList]⟩
  | some v =>
    simp only [wfDoc, hv, Option.getD_some] at h
    cases v with
    | plist xs => exact ⟨xs, rfl, List.all_eq_true.mp h⟩
    | pnone => simp at h
    | pbool b => simp at h
    | pint k => simp at h
    | pstr s => simp at h
    | pdict kvs' => simp at h

/-- Grouping keeps only values drawn from the old groups or the added one. -/
theorem addToGroup_wf {P : PyValue → Prop} :
    ∀ (groups : List (String × List PyValue)) (k : String) (v : PyValue),
      (∀ g ∈ groups, ∀ u ∈ g.2, P u) → P v →
      ∀ g ∈ addToGroup groups k v, ∀ u ∈ g.2, P u := by
  intro groups
  induction groups with
  | nil =>
    intro k v _ hv g hg u hu
    simp only [addToGroup, List.mem_singleton] at hg
    subst hg
    simp only [List.mem_singleton] at hu
    subst hu
    exact hv
  | cons g0 rest ih =>
    intro k v hall hv g hg u hu
    obtain ⟨k', vs⟩ := g0
    by_cases hk : (k' == k)
    · simp only [addToGroup, hk, if_pos] at hg
      rcases List.mem_cons.mp hg with heq | hrest
      · subst heq
        rcases List.mem_append.mp hu with h1 | h2
        · exact hall (k', vs) (List.mem_cons_self _ _) u h1
        · rw [List.mem_singleton.mp h2]
          exact hv
      · exact hall g (List.mem_cons_of_mem _ hrest) u hu
    · simp only [addToGroup, hk, Bool.false_eq_true, if_false] at hg
      rcases List.mem_cons.mp hg with heq | hrest
      · subst heq
        exact hall (k', vs) (List.mem_cons_self _ _) u hu
      · exact ih k v (fun g' hg' => hall g' (List.mem_cons_of_mem _ hg')) hv g hrest u hu

/-- Grouping well-formed rules succeeds and yields groups of well-formed
rules. -/
theorem groupRules_ok :
    ∀ (brs : List PyValue), (∀ br ∈ brs, wfRule br = true) →
      ∀ (acc : List (String × List PyValue)),
        (∀ g ∈ acc, ∀ u ∈ g.2, wfRule u = true) →
        ∃ gs, groupRules brs acc = .ok gs ∧
          ∀ g ∈ gs, ∀ u ∈ g.2, wfRule u = true := by
  intro brs
  induction brs with
  | nil => intro _ acc hacc; exact ⟨acc, rfl, hacc⟩
  | cons br rest ih =>
    intro hwf acc hacc
    have hbr := hwf br (List.mem_cons_self _ _)
    cases br with
    | pdict kvs =>
      obtain ⟨s, hs⟩ := wfRule_rule hbr ""
      simp only [groupRules, pyGetE, hs, asStrE, Bind.bind, Except.bind]
      exact ih (fun u hu => hwf u (List.mem_cons_of_mem _ hu))
        (addToGroup acc (detect_persona s) (.pdict kvs))
        (addToGroup_wf acc (detect_persona s) (.pdict kvs) hacc hbr)
    | pnone => simp [wfRule] at hbr
    | pbool b => simp [wfRule] at hbr
    | pint k => simp [wfRule] at hbr
    | pstr s => simp [wfRule] at hbr
    | plist xs => simp [wfRule] at hbr

/-- Scenario composition succeeds on well-formed rules. -/
theorem scenarioLines_ok :
    ∀ (rules : List PyValue), (∀ br ∈ rules, wfRule br = true) →
      ∃ ls, scenarioLines rules = .ok ls := by
  intro rules
  induction rules with
  | nil => exact fun _ => ⟨[], rfl⟩
  | cons br rest ih =>
    intro hwf
    have hbr := hwf br (List.mem_cons_self _ _)
    cases br with
    | pdict kvs =>
      obtain ⟨t, ht⟩ := wfRule_rule hbr "Regra"
      obtain ⟨xs, hxs, hall⟩ := wfRule_files hbr
      obtain ⟨ev, hev⟩ := evidenceLines_ok (itemsToList xs) hall
      obtain ⟨more, hmore⟩ := ih (fun u hu => hwf u (List.mem_cons_of_mem _ hu))
      simp only [scenarioLines, pyGetE, ht, hxs, pyIterE, hev, hmore,
        Bind.bind, Except.bind]
      exact ⟨_, rfl⟩
    | pnone => simp [wfRule] at hbr
    | pbool b => simp [wfRule] at hbr
    | pint k => simp [wfRule] at hbr
    | pstr s => simp [wfRule] at hbr
    | plist xs => simp [wfRule] at hbr

/-- Per-persona composition and write recording succeed when the module
name is a string and every grouped rule is well-formed. -/
theorem personaFiles_ok (od : String) (gbp : Bool) (s : String) (fd : PyValue) :
    ∀ (groups : List (String × List PyValue)),
      (∀ g ∈ groups, ∀ u ∈ g.2, wfRule u = true) →
      ∃ r, personaFiles od gbp (.pstr s) fd groups = .ok r := by
  intro groups
  induction groups with
  | nil => exact fun _ => ⟨([], []), rfl⟩
  | cons g0 rest ih =>
    intro hwf
    obtain ⟨persona, rules⟩ := g0
    obtain ⟨scen, hscen⟩ := scenarioLines_ok rules
      (fun u hu => hwf (persona, rules) (List.mem_cons_self _ _) u hu)
    obtain ⟨r, hr⟩ := ih (fun g hg => hwf g (List.mem_cons_of_mem _ hg))
    obtain ⟨w, ws⟩ := r
    simp only [personaFiles, hscen, sanitizeE, hr, Bind.bind, Except.bind]
    exact ⟨_, rfl⟩

/-- Processing a well-formed module succeeds. -/
theorem processModule_ok (od : String) (gbp : Bool) (m : PyValue)
    (hm : wfModule m = true) :
    ∃ r, processModule od gbp m = .ok r := by
  cases m with
  | pdict kvs =>
    obtain ⟨s, hname⟩ := wfModule_name hm
    obtain ⟨xs, hxs, hall⟩ := wfModule_rules hm
    obtain ⟨gs, hgs, hgswf⟩ := groupRules_ok (itemsToList xs) hall [] (by simp)
    obtain ⟨r, hr⟩ := personaFiles_ok od gbp s
      ((assocGet kvs "functional_domain").getD (.pstr "")) gs hgswf
    simp only [processModule, pyGetE, hname, hxs, pyIterE, hgs, hr,
      Bind.bind, Except.bind]
    exact ⟨_, rfl⟩
  | pnone => simp [wfModule] at hm
  | pbool b => simp [wfModule] at hm
  | pint k => simp [wfModule] at hm
  | pstr s => simp [wfModule] at hm
  | plist xs => simp [wfModule] at hm

/-- Processing a list of well-formed modules succeeds. -/
theorem processModules_ok (od : String) (gbp : Bool) :
    ∀ (ms : List PyValue), (∀ m ∈ ms, wfModule m = true) →
      ∃ r, processModules od gbp ms = .ok r := by
  intro ms
  induction ms with
  | nil => exact fun _ => ⟨([], []), rfl⟩
  | cons m rest ih =>
    intro hwf
    obtain ⟨r1, hr1⟩ := processModule_ok od gbp m (hwf m (List.mem_cons_self _ _))
    obtain ⟨w1, ws1⟩ := r1
    obtain ⟨r2, hr2⟩ := ih (fun u hu => hwf u (List.mem_cons_of_mem _ hu))
    obtain ⟨w2, ws2⟩ := r2
    simp only [processModules, hr1, hr2, Bind.bind, Except.bind]
    exact ⟨_, rfl⟩

/-- C4: the generator returns the structured error result (and performs no
writes, raising nothing) exactly when the analysis file is absent or not
valid JSON; and for every analysis document that parses to a well-formed
value (a JSON object whose modules, rules and evidence entries carry the
types the code's attribute accesses need), the run returns a result with
no error field.  The restriction to well-formed values is forced by the
counterexample: JSON that parses to a non-object makes `analysis.get`
raise instead of returning any result. -/
theorem generator_error_handling (ap od : String) (gbp sm : Bool) :
    generate_gherkin_stories .absent ap od gbp sm =
      .ok ⟨[], some (genErrMsg ap), []⟩ ∧
    generate_gherkin_stories .unparsable ap od gbp sm =
      .ok ⟨[], some (genErrMsg ap), []⟩ ∧
    ∀ v : PyValue, wfDoc v = true →
      ∃ w ws, generate_gherkin_stories (.parsed v) ap od gbp sm =
        .ok ⟨w, Option.none, ws⟩ := by
  refine ⟨rfl, rfl, ?_⟩
  intro v hv
  cases v with
  | pdict kvs =>
    obtain ⟨xs, hxs, hall⟩ := wfDoc_modules hv
    obtain ⟨r, hr⟩ := processModules_ok od gbp (itemsToList xs) hall
    obtain ⟨w, ws⟩ := r
    simp only [generate_gherkin_stories, pyGetE, hxs, pyIterE, hr,
      Bind.bind, Except.bind]
    exact ⟨w, ws, rfl⟩
  | pnone => simp [wfDoc] at hv
  | pbool b => simp [wfDoc] at hv
  | pint k => simp [wfDoc] at hv
  | pstr s => simp [wfDoc] at hv
  | plist xs => simp [wfDoc] at hv

/-- Witness for C4: the concrete scenario-literal document is well-formed
and generates without an error field. -/
theorem generator_error_handling_witness :
    wfDoc authDoc = true ∧
    ∃ w ws, generate_gherkin_stories (.parsed authDoc) "/a/analysis.json" "/out" true true =
      .ok ⟨w, Option.none, ws⟩ :=
  ⟨by decide,
    (generator_error_handling "/a/analysis.json" "/out" true true).2.2 authDoc (by decide)⟩

/-- Counterexample for C4 as stated: an analysis file whose content parses
as the JSON number 5 makes the generator raise `AttributeError` at
`analysis.get("modules", [])` — no structured result (with or without an
error field) is returned. -/
theorem generator_error_handling_cex :
    generate_gherkin_stories (.parsed (.pint 5)) "/a/analysis.json" "/out" true true =
      .error .attributeError := rfl

/-- C8 (amended): whenever the strict parse stage yields no config —
`json.loads` failed on the payload, or the parsed value is not a dict (or
array containing a dict) with both `repo_root` and `patterns` keys — the
lenient orchestrator falls back to the heuristic extraction (best-effort
root, defaulting to `"."`, plus the five fixed default patterns) and
returns a well-formed scan result without raising.  For payloads that do
strict-parse, the config's values are delegated as-is and ill-typed values
make the run raise — see the counterexample. -/
theorem lenient_fallback (pyC : String → Pattern) (loadsResult : Option PyValue)
    (pathTok : Option String) (tree : EntryList)
    (h : robustTryParse loadsResult = Option.none) :
    robust_search_repo_patterns pyC loadsResult pathTok tree =
      .ok (runSearch (pathTok.getD ".") (heuristicDefaultPatterns.map pyC)
        [] [] 5 2 2000 tree) := by
  simp only [robust_search_repo_patterns, h]
  rfl

/-- Witness for C8: a payload that is not JSON at all (`json.loads`
returns nothing, no path-like token) still produces a scan result. -/
theorem lenient_fallback_witness :
    robustTryParse Option.none = Option.none ∧
    robust_search_repo_patterns pyCompileNull Option.none Option.none EntryList.nil =
      .ok (runSearch "." (heuristicDefaultPatterns.map pyCompileNull)
        [] [] 5 2 2000 EntryList.nil) :=
  ⟨rfl, lenient_fallback pyCompileNull Option.none Option.none EntryList.nil rfl⟩

/-- Counterexample for C8 as stated: the payload
`{"repo_root": ".", "patterns": 3}` strict-parses (both keys present), the
config is delegated, and `[re.compile(p) for p in patterns if p]` raises
`TypeError` on the non-iterable `patterns` — the orchestrator does raise
for this payload string. -/
theorem lenient_fallback_cex :
    robust_search_repo_patterns pyCompileNull (some badPatternsCfg)
      Option.none EntryList.nil = .error .typeError := rfl
